import Mathlib

/-!
Shallow embedding of the `chess-core` crate: the geometry (`Vector`, `Pos`),
the piece catalog (`Piece`, `Color`, `MoveType`, `VMove`), the 8×8 grid
(`RawBoard`) and the board operations (`apply`, the pseudo-legal and legal
move generators, the check detector and the game-condition classifier),
followed by theorems settling the specification claims.

Machine integers of the source are modelled as `Int`/`Nat`; none of the
arithmetic here can overflow an `i32`/`usize` (all values stay within
single digits times a step count bounded by 8), so plain integers are a
faithful model.  Fallible operations return `Except`/`Option`, and the
in-place mutation of `Board::apply` is modelled by explicit state passing:
`apply` returns the grid as it stands when the function returns, paired
with the error if one was raised, which also captures the state a failing
call leaves behind.
-/

set_option autoImplicit false

namespace ChessCore

/-- Integer 2D displacement, `math.rs`'s `Vector` with `i32` fields as `Int`. -/
structure Vector where
  x : Int
  y : Int
deriving DecidableEq, Repr

instance : Add Vector where
  add a b := ⟨a.x + b.x, a.y + b.y⟩

/-- Scalar multiplication `Vector * i32` from `math.rs`. -/
instance : HMul Vector Int Vector where
  hMul v n := ⟨v.x * n, v.y * n⟩

theorem Vector.add_def (a b : Vector) : a + b = ⟨a.x + b.x, a.y + b.y⟩ := rfl

theorem Vector.mul_def (v : Vector) (n : Int) : v * n = ⟨v.x * n, v.y * n⟩ := rfl

/-- Error type `OutOfBounds` of `error.rs`. -/
inductive OutOfBounds where
  | mk
deriving DecidableEq, Repr

/-- Error enum `InvalidDiff` of `error.rs`. -/
inductive InvalidDiff where
  | CaptureOnMoveTy
  | MoveOnCaptureTy
  | InvalidPromotionPiece
  | InvalidPromotionRow
deriving DecidableEq, Repr

/-- Error enum `Error` of `error.rs`. -/
inductive Error where
  | InvalidDiff (d : InvalidDiff)
  | OutOfBounds
  | NoPiece
deriving DecidableEq, Repr

/-- Validated board coordinate, `board.rs`'s `Pos`.  The source stores two
`usize` fields whose bound `< 8` is established by every checked
constructor; the invariant is carried in the type here. -/
structure Pos where
  x : Fin 8
  y : Fin 8
deriving DecidableEq, Repr

/-- Bounds-checked construction from two coordinates, `Pos::new`. -/
def Pos.new (x y : Nat) : Except OutOfBounds Pos :=
  if h : x < 8 ∧ y < 8 then .ok ⟨⟨x, h.1⟩, ⟨y, h.2⟩⟩ else .error .mk

/-- Bounds-checked conversion from a `Vector`, `Pos::try_from`. -/
def Pos.try_from (v : Vector) : Except OutOfBounds Pos :=
  if h : 0 ≤ v.x ∧ 0 ≤ v.y ∧ v.x < 8 ∧ v.y < 8 then
    .ok ⟨⟨v.x.toNat, by omega⟩, ⟨v.y.toNat, by omega⟩⟩
  else .error .mk

instance {e a : Type} [DecidableEq e] [DecidableEq a] : DecidableEq (Except e a) := fun u v =>
  match u, v with
  | .ok x, .ok y => decidable_of_iff (x = y) (by simp)
  | .ok _, .error _ => isFalse (by intro h; cases h)
  | .error _, .ok _ => isFalse (by intro h; cases h)
  | .error x, .error y => decidable_of_iff (x = y) (by simp)

/-- Conversion to a `Vector`, `Pos::into`. -/
def Pos.into (p : Pos) : Vector :=
  ⟨(p.x : Nat), (p.y : Nat)⟩

/-- Piece kind enum, `pieces.rs`'s `Piece`. -/
inductive Piece where
  | King
  | Queen
  | Rook
  | Bishop
  | Knight
  | Pawn
deriving DecidableEq, Repr

/-- Color enum of `pieces.rs`. -/
inductive Color where
  | Black
  | White
deriving DecidableEq, Repr

/-- Move kind enum `MoveType` of `pieces.rs`. -/
inductive MoveType where
  | Move
  | Capture
  | MoveCapture
deriving DecidableEq, Repr

/-- Move template `VMove` of `pieces.rs`: piece, delta, kind, max distance. -/
structure VMove where
  piece : Piece
  del : Vector
  ty : MoveType
  dist : Nat
deriving DecidableEq, Repr

/-- Forward direction sign, `Color::dir`. -/
def Color.dir : Color → Int
  | .White => 1
  | .Black => -1

/-- Predicate `MoveType::is_capture`. -/
def MoveType.is_capture : MoveType → Bool
  | .Move => false
  | _ => true

/-- Predicate `MoveType::is_normal`. -/
def MoveType.is_normal : MoveType → Bool
  | .Capture => false
  | _ => true

/-- Static move templates, `Piece::get_moves` with the `moves!` macro expanded:
a template `(x, y, dist, mt)` is `VMove(piece, Vector{x,y}, mt, dist)`, a
template `(x, y, dist)` defaults the kind to `MoveCapture`, and `(x, y)`
additionally defaults the distance to 8. -/
def Piece.get_moves : Piece → List VMove
  | .Pawn =>
      [⟨.Pawn, ⟨0, 1⟩, .Move, 1⟩,
       ⟨.Pawn, ⟨0, 2⟩, .Move, 1⟩,
       ⟨.Pawn, ⟨1, 1⟩, .Capture, 1⟩,
       ⟨.Pawn, ⟨-1, 1⟩, .Capture, 1⟩]
  | .Knight =>
      [⟨.Knight, ⟨1, -2⟩, .MoveCapture, 1⟩,
       ⟨.Knight, ⟨1, 2⟩, .MoveCapture, 1⟩,
       ⟨.Knight, ⟨-1, -2⟩, .MoveCapture, 1⟩,
       ⟨.Knight, ⟨-1, 2⟩, .MoveCapture, 1⟩,
       ⟨.Knight, ⟨2, -1⟩, .MoveCapture, 1⟩,
       ⟨.Knight, ⟨2, 1⟩, .MoveCapture, 1⟩,
       ⟨.Knight, ⟨-2, -1⟩, .MoveCapture, 1⟩,
       ⟨.Knight, ⟨-2, 1⟩, .MoveCapture, 1⟩]
  | .Bishop =>
      [⟨.Bishop, ⟨1, 1⟩, .MoveCapture, 8⟩,
       ⟨.Bishop, ⟨1, -1⟩, .MoveCapture, 8⟩,
       ⟨.Bishop, ⟨-1, 1⟩, .MoveCapture, 8⟩,
       ⟨.Bishop, ⟨-1, -1⟩, .MoveCapture, 8⟩]
  | .Rook =>
      [⟨.Rook, ⟨1, 0⟩, .MoveCapture, 8⟩,
       ⟨.Rook, ⟨-1, 0⟩, .MoveCapture, 8⟩,
       ⟨.Rook, ⟨0, 1⟩, .MoveCapture, 8⟩,
       ⟨.Rook, ⟨0, -1⟩, .MoveCapture, 8⟩]
  | .Queen =>
      [⟨.Queen, ⟨1, 0⟩, .MoveCapture, 8⟩,
       ⟨.Queen, ⟨-1, 0⟩, .MoveCapture, 8⟩,
       ⟨.Queen, ⟨0, 1⟩, .MoveCapture, 8⟩,
       ⟨.Queen, ⟨0, -1⟩, .MoveCapture, 8⟩,
       ⟨.Queen, ⟨1, 1⟩, .MoveCapture, 8⟩,
       ⟨.Queen, ⟨1, -1⟩, .MoveCapture, 8⟩,
       ⟨.Queen, ⟨-1, 1⟩, .MoveCapture, 8⟩,
       ⟨.Queen, ⟨-1, -1⟩, .MoveCapture, 8⟩]
  | .King =>
      [⟨.King, ⟨1, 0⟩, .MoveCapture, 1⟩,
       ⟨.King, ⟨-1, 0⟩, .MoveCapture, 1⟩,
       ⟨.King, ⟨0, 1⟩, .MoveCapture, 1⟩,
       ⟨.King, ⟨0, -1⟩, .MoveCapture, 1⟩,
       ⟨.King, ⟨1, 1⟩, .MoveCapture, 1⟩,
       ⟨.King, ⟨1, -1⟩, .MoveCapture, 1⟩,
       ⟨.King, ⟨-1, 1⟩, .MoveCapture, 1⟩,
       ⟨.King, ⟨-1, -1⟩, .MoveCapture, 1⟩]

/-- The 8×8 occupancy grid, `board.rs`'s `RawBoard`: `data[y][x]` holds the
optional occupant of square `(x, y)`. -/
structure RawBoard where
  data : Fin 8 → Fin 8 → Option (Piece × Color)

instance : DecidableEq RawBoard := fun a b =>
  decidable_of_iff (a.data = b.data) (by cases a; cases b; simp)

/-- Read of a square, `RawBoard::get` (the source returns
`Result<Piece, Error>` with `Error::NoPiece` on an empty square; the
`Option` carries the same information and callers of `.ok()` read it
directly). -/
def RawBoard.get (b : RawBoard) (p : Pos) : Option (Piece × Color) :=
  b.data p.y p.x

/-- Write of an optional occupant to one square; the common core of
`RawBoard::set`, `replace` and `remove` (which differ only in the value
written and the previous value returned, read here via `get`). -/
def RawBoard.setSquare (b : RawBoard) (p : Pos) (v : Option (Piece × Color)) : RawBoard :=
  ⟨fun r c => if r = p.y ∧ c = p.x then v else b.data r c⟩

/-- Unconditional placement, `RawBoard::set`. -/
def RawBoard.set (b : RawBoard) (p : Pos) (pt : Piece) (c : Color) : RawBoard :=
  b.setSquare p (some (pt, c))

/-- Removal (`Option::take` of the square), `RawBoard::remove` without its
returned previous occupant. -/
def RawBoard.removeAt (b : RawBoard) (p : Pos) : RawBoard :=
  b.setSquare p none

/-- Iteration over all occupied squares in storage order,
`RawBoard::iter`: rows of `data` outermost, so square `(c, r)` is visited
for row `r` and column `c`. -/
def RawBoard.iter (b : RawBoard) : List (Pos × Piece × Color) :=
  (List.finRange 8).flatMap fun r =>
    (List.finRange 8).filterMap fun c =>
      (b.data r c).map fun pc => (⟨c, r⟩, pc.1, pc.2)

/-- Diff payload enum `DiffType` of `board.rs`. -/
inductive DiffType where
  | Promote (piece : Piece)
  | Capture (cap : Pos)
  | Move
deriving DecidableEq, Repr

/-- Proposed board transition, `board.rs`'s `Diff`. -/
structure Diff where
  ty : DiffType
  src : Pos
  dst : Pos
deriving DecidableEq, Repr

/-- Game classification enum `GameCondition` of `board.rs`. -/
inductive GameCondition where
  | Safe
  | Stale
  | Check
  | Mate
deriving DecidableEq, Repr

/-- Transcription of `Board::apply`.  The source mutates `self.board` in
place and returns `Result<(), Error>`; here the grid is passed explicitly
and the result is the pair of the grid as the function leaves it and the
error, if any, that it returns.  `remove`/`replace` of an empty square
write `None` over `None`, which is observationally the identity, so those
branches return the incoming grid unchanged. -/
def Board.apply (b : RawBoard) (d : Diff) : RawBoard × Option Error :=
  match d.ty with
  | .Move =>
      match b.get d.src with
      | none => (b, some .NoPiece)
      | some (piece, color) =>
          let b1 := b.removeAt d.src
          if (b1.get d.dst).isSome then
            (b1, some (.InvalidDiff .CaptureOnMoveTy))
          else
            (b1.set d.dst piece color, none)
  | .Capture cap =>
      match b.get d.src with
      | none => (b, some .NoPiece)
      | some (piece, color) =>
          let b1 := b.removeAt d.src
          let prev := b1.get cap
          let b2 := b1.removeAt cap
          if prev.isNone then
            (b2, some (.InvalidDiff .MoveOnCaptureTy))
          else
            (b2.set d.dst piece color, none)
  | .Promote piece =>
      match b.get d.src with
      | none => (b, some .NoPiece)
      | some (.Pawn, color) =>
          let b1 := b.removeAt d.src
          let row : Int := (1 - color.dir) / 2 * 5 + 1
          let prom : Int := (1 - color.dir) / 2 * 8
          if d.src.into.y = row ∧ d.dst.into.y = prom then
            (b1.set d.dst piece color, none)
          else
            (b1, some (.InvalidDiff .InvalidPromotionRow))
      | some _ =>
          (b.removeAt d.src, some (.InvalidDiff .InvalidPromotionPiece))

/-- Empty grid, `RawBoard::default`. -/
def RawBoard.empty : RawBoard :=
  ⟨fun _ _ => none⟩

/-- Standard initial position, `Board::new`. -/
def Board.new : RawBoard :=
  let b := RawBoard.empty
  let b := b.set ⟨0, 0⟩ .Rook .White
  let b := b.set ⟨7, 0⟩ .Rook .White
  let b := b.set ⟨1, 0⟩ .Knight .White
  let b := b.set ⟨6, 0⟩ .Knight .White
  let b := b.set ⟨2, 0⟩ .Bishop .White
  let b := b.set ⟨5, 0⟩ .Bishop .White
  let b := b.set ⟨3, 0⟩ .Queen .White
  let b := b.set ⟨4, 0⟩ .King .White
  let b := b.set ⟨0, 7⟩ .Rook .Black
  let b := b.set ⟨7, 7⟩ .Rook .Black
  let b := b.set ⟨1, 7⟩ .Knight .Black
  let b := b.set ⟨6, 7⟩ .Knight .Black
  let b := b.set ⟨2, 7⟩ .Bishop .Black
  let b := b.set ⟨5, 7⟩ .Bishop .Black
  let b := b.set ⟨3, 7⟩ .Queen .Black
  let b := b.set ⟨4, 7⟩ .King .Black
  let b := (List.finRange 8).foldl (fun b i => (b.set ⟨i, 1⟩ .Pawn .White).set ⟨i, 6⟩ .Pawn .Black) b
  b

/-- On-board targets of one template direction: steps `1..=dist` (the
`steps` argument) mapped through `Pos::try_from`; the source's `flat_map`
over the `Result` iterator keeps the `Ok` values. -/
def dirTargets (pos del : Vector) (steps : List Nat) : List Pos :=
  steps.filterMap fun (k : Nat) => (Pos.try_from (pos + del * (k : Int))).toOption

/-- Cut-off of a direction after its first occupied target: the source's
`take_while` over the `no_captures` flag keeps every element up to and
including the first whose victim is `Some`. -/
def stopAfterVictim {α : Type} : List (α × Option (Piece × Color)) → List (α × Option (Piece × Color))
  | [] => []
  | x :: xs => x :: (if x.2.isSome then [] else stopAfterVictim xs)

/-- Diff emission of one direction, the `map`/`take_while`/`flat_map` body
of `Board::get_possible_moves_unchecked`. -/
def emitDiffs (b : RawBoard) (color : Color) (old_pos : Pos) (ty : MoveType) (tgts : List Pos) : List Diff :=
  let pairs := tgts.map fun p =>
    let victim := b.get p
    let diff : Option Diff :=
      match victim with
      | some (_, v_color) =>
          if ty.is_capture && v_color != color then
            some ⟨.Capture p, old_pos, p⟩
          else none
      | none =>
          if ty.is_normal then some ⟨.Move, old_pos, p⟩ else none
    (diff, victim)
  (stopAfterVictim pairs).filterMap fun x => x.1

/-- All diffs of one scaled template direction. -/
def genDir (b : RawBoard) (color : Color) (old_pos : Pos) (del : Vector) (ty : MoveType) (dist : Nat) : List Diff :=
  emitDiffs b color old_pos ty (dirTargets old_pos.into del (List.range' 1 dist))

/-- Pseudo-legal generation, `Board::get_possible_moves_unchecked`:
`None` when the origin is unoccupied, otherwise every template of the
occupant expanded with its delta scaled by the occupant's color
direction.  (The trailing `match pt {..}` of the source is a no-op.) -/
def Board.get_possible_moves_unchecked (b : RawBoard) (pos : Pos) : Option (List Diff) :=
  (b.get pos).map fun pc =>
    let dir := pc.2.dir
    (pc.1.get_moves).flatMap fun m => genDir b pc.2 pos (m.del * dir) m.ty m.dist

/-- Check detection, `Board::is_king_check`: scan every square occupied by
the opposing color, expand its pseudo-legal diffs, look the destinations
up on the board and test for the king of `color`.  The source's
`.unwrap()` never fires because iterated squares are occupied; `getD []`
returns the same list on every reachable input. -/
def Board.is_king_check (b : RawBoard) (color : Color) : Bool :=
  ((b.iter.filter fun t => t.2.2 != color).flatMap fun t =>
      ((Board.get_possible_moves_unchecked b t.1).getD []).filterMap fun d => b.get d.dst).any
    fun pc => pc.1 == Piece.King && pc.2 == color

/-- Legality-filtered generation, `Board::get_possible_moves`: pseudo-legal
diffs at `pos`, keeping those whose application to a copy of the board does
not leave the mover's own king in check.  The source's
`temp.apply(x).unwrap()` never fails on a pseudo-legal diff (see
`apply_of_mem_pseudo`), so taking the state component of `apply` is the
same computation. -/
def Board.get_possible_moves (b : RawBoard) (pos : Pos) : Option (List Diff) :=
  (b.get pos).bind fun pc =>
    (Board.get_possible_moves_unchecked b pos).map fun diffs =>
      diffs.filter fun x => !(Board.is_king_check (Board.apply b x).1 pc.2)

/-- Game classification, `Board::game_condition`. -/
def Board.game_condition (b : RawBoard) (color : Color) : GameCondition :=
  let has_moves := ((b.iter.filter fun t => t.2.2 == color).flatMap fun t =>
      (Board.get_possible_moves b t.1).getD []).any fun _ => true
  let is_check := Board.is_king_check b color
  match is_check, has_moves with
  | true, true => .Check
  | true, false => .Mate
  | false, true => .Safe
  | false, false => .Stale

/-- Modelled from the spec: the §4.4 walk of one template direction, for
the refinement claim about emission order.  Steps are scanned from `k` for
`n` further steps; stepping off-board ends the whole direction; an empty
target emits a `Move` when the template permits plain moves and the walk
continues; the first occupied target ends the direction and emits a
`Capture` exactly when the occupant is opposite-colored and the template
permits capture. -/
def specDir (b : RawBoard) (color : Color) (origin : Pos) (del : Vector) (ty : MoveType) : Nat → Nat → List Diff
  | _, 0 => []
  | k, Nat.succ n =>
    match Pos.try_from (origin.into + del * (k : Int)) with
    | .error _ => []
    | .ok t =>
      match b.get t with
      | none =>
          (if ty.is_normal then [⟨.Move, origin, t⟩] else []) ++
            specDir b color origin del ty (k + 1) n
      | some (_, v_color) =>
          if ty.is_capture && v_color != color then [⟨.Capture t, origin, t⟩] else []

/-- Modelled from the spec: "has_moves = true if any occupied square of
color yields at least one legality-filtered diff" (§4.7), as a predicate
on the grid. -/
def HasLegalMove (b : RawBoard) (color : Color) : Prop :=
  ∃ p pt, b.get p = some (pt, color) ∧ (Board.get_possible_moves b p).getD [] ≠ []

/-- Fixture: a lone White rook on square (0,0). -/
def rookBoard : RawBoard :=
  RawBoard.empty.set ⟨0, 0⟩ .Rook .White

/-- Fixture: a lone White pawn on square (4,6), one step from its last rank. -/
def whitePromBoard : RawBoard :=
  RawBoard.empty.set ⟨4, 6⟩ .Pawn .White

/-- Fixture: a lone Black pawn on square (3,6). -/
def blackPawnBoard : RawBoard :=
  RawBoard.empty.set ⟨3, 6⟩ .Pawn .Black

/-- Fixture: a White pawn on (3,3) with a Black rook directly ahead on (3,4). -/
def jumpBoard : RawBoard :=
  (RawBoard.empty.set ⟨3, 3⟩ .Pawn .White).set ⟨3, 4⟩ .Rook .Black

/-- Fixture: a White king on (0,0) attacked by a Black rook on (0,2). -/
def checkBoard : RawBoard :=
  (RawBoard.empty.set ⟨0, 0⟩ .King .White).set ⟨0, 2⟩ .Rook .Black

/-! ### Basic grid lemmas -/

theorem RawBoard.get_setSquare_self (b : RawBoard) (p : Pos) (v : Option (Piece × Color)) :
    (b.setSquare p v).get p = v := by
  simp [RawBoard.get, RawBoard.setSquare]

theorem RawBoard.get_setSquare_ne (b : RawBoard) {p q : Pos} (v : Option (Piece × Color))
    (h : p ≠ q) : (b.setSquare q v).get p = b.get p := by
  cases p with
  | mk px py =>
    cases q with
    | mk qx qy =>
      have : ¬(py = qy ∧ px = qx) := by
        intro hc
        exact h (by cases hc with | intro h1 h2 => cases h1; cases h2; rfl)
      simp [RawBoard.get, RawBoard.setSquare, this]

theorem RawBoard.ext_get {b1 b2 : RawBoard} (h : ∀ p, b1.get p = b2.get p) : b1 = b2 := by
  cases b1 with
  | mk d1 =>
    cases b2 with
    | mk d2 =>
      have : d1 = d2 := funext fun r => funext fun c => h ⟨c, r⟩
      rw [this]

theorem RawBoard.mem_iter {b : RawBoard} {p : Pos} {pt : Piece} {c : Color} :
    (p, pt, c) ∈ b.iter ↔ b.get p = some (pt, c) := by
  cases p with
  | mk px py =>
    constructor
    · intro h
      simp only [RawBoard.iter, List.mem_flatMap, List.mem_filterMap, List.mem_finRange,
        true_and] at h
      obtain ⟨r, col, hmap⟩ := h
      cases hval : b.data r col with
      | none => rw [hval] at hmap; simp at hmap
      | some pc =>
        rw [hval] at hmap
        simp only [Option.map_some', Option.some.injEq] at hmap
        cases hmap
        exact hval
    · intro h
      simp only [RawBoard.iter, List.mem_flatMap, List.mem_filterMap, List.mem_finRange,
        true_and]
      refine ⟨py, px, ?_⟩
      rw [show b.data py px = some (pt, c) from h]
      rfl

/-! ### Position construction lemmas -/

theorem Pos.try_from_ok_into {v : Vector} {p : Pos} (h : Pos.try_from v = .ok p) :
    p.into = v := by
  unfold Pos.try_from at h
  split at h
  · rename_i hb
    cases h
    simp [Pos.into, Int.toNat_of_nonneg hb.1, Int.toNat_of_nonneg hb.2.1]
  · cases h

theorem Pos.into_inj {p q : Pos} (h : p.into = q.into) : p = q := by
  cases p with
  | mk px py =>
    cases q with
    | mk qx qy =>
      simp only [Pos.into, Vector.mk.injEq] at h
      have hx : (px : Nat) = (qx : Nat) := by exact_mod_cast h.1
      have hy : (py : Nat) = (qy : Nat) := by exact_mod_cast h.2
      have : px = qx := Fin.ext hx
      have : py = qy := Fin.ext hy
      simp_all

/-! ### Off-board monotonicity -/

theorem coord_out_mono {a d : Int} {i j : Nat} (ha0 : 0 ≤ a) (ha8 : a < 8)
    (hi : 1 ≤ i) (hij : i ≤ j) (h : ¬(0 ≤ a + d * i ∧ a + d * i < 8)) :
    ¬(0 ≤ a + d * j ∧ a + d * j < 8) := by
  have hi' : (1 : Int) ≤ (i : Int) := by exact_mod_cast hi
  have hij' : (i : Int) ≤ (j : Int) := by exact_mod_cast hij
  rintro ⟨hj0, hj8⟩
  rcases not_and_or.mp h with hlow | hhigh
  · have hlt : a + d * i < 0 := lt_of_not_le fun hc => hlow hc
    have hd : d < 0 := by nlinarith
    have : d * (j : Int) ≤ d * i := mul_le_mul_of_nonpos_left hij' (le_of_lt hd)
    nlinarith
  · have hge : 8 ≤ a + d * i := le_of_not_lt fun hc => hhigh hc
    have hd : 0 < d := by nlinarith
    have : d * (i : Int) ≤ d * j := mul_le_mul_of_nonneg_left hij' (le_of_lt hd)
    nlinarith

theorem try_from_error_mono {p : Pos} {del : Vector} {i j : Nat}
    (hi : 1 ≤ i) (hij : i ≤ j)
    (h : Pos.try_from (p.into + del * (i : Int)) = .error .mk) :
    Pos.try_from (p.into + del * (j : Int)) = .error .mk := by
  have hx0 : (0 : Int) ≤ (p.x : Nat) := by positivity
  have hx8 : ((p.x : Nat) : Int) < 8 := by exact_mod_cast p.x.isLt
  have hy0 : (0 : Int) ≤ (p.y : Nat) := by positivity
  have hy8 : ((p.y : Nat) : Int) < 8 := by exact_mod_cast p.y.isLt
  unfold Pos.try_from at h ⊢
  split at h
  · cases h
  · rename_i hni
    simp only [Vector.add_def, Vector.mul_def, Pos.into] at hni ⊢
    split
    · rename_i hj
      exfalso
      have hsplit : ¬(0 ≤ ((p.x : Nat) : Int) + del.x * i ∧ ((p.x : Nat) : Int) + del.x * i < 8) ∨
          ¬(0 ≤ ((p.y : Nat) : Int) + del.y * i ∧ ((p.y : Nat) : Int) + del.y * i < 8) := by
        tauto
      rcases hsplit with hc | hc
      · exact coord_out_mono hx0 hx8 hi hij hc ⟨hj.1, hj.2.2.1⟩
      · exact coord_out_mono hy0 hy8 hi hij hc ⟨hj.2.1, hj.2.2.2⟩
    · rfl

/-! ### Direction pipeline refinement -/

theorem emitDiffs_nil (b : RawBoard) (color : Color) (op : Pos) (ty : MoveType) :
    emitDiffs b color op ty [] = [] := rfl

theorem emitDiffs_cons (b : RawBoard) (color : Color) (op : Pos) (ty : MoveType)
    (t : Pos) (ts : List Pos) :
    emitDiffs b color op ty (t :: ts) =
      match b.get t with
      | none => (if ty.is_normal then [⟨.Move, op, t⟩] else []) ++ emitDiffs b color op ty ts
      | some (_, v_color) =>
          if ty.is_capture && v_color != color then [⟨.Capture t, op, t⟩] else [] := by
  cases hv : b.get t with
  | none =>
    cases hn : ty.is_normal with
    | true => simp [emitDiffs, stopAfterVictim, hv, hn]
    | false => simp [emitDiffs, stopAfterVictim, hv, hn]
  | some pc =>
    cases pc with
    | mk pt1 c1 =>
      cases hc : (ty.is_capture && c1 != color) with
      | true => simp [emitDiffs, stopAfterVictim, hv, hc]
      | false => simp [emitDiffs, stopAfterVictim, hv, hc]

theorem emit_range'_eq_specDir (b : RawBoard) (color : Color) (op : Pos)
    (del : Vector) (ty : MoveType) :
    ∀ (n k : Nat), 1 ≤ k →
      emitDiffs b color op ty (dirTargets op.into del (List.range' k n)) =
        specDir b color op del ty k n := by
  intro n
  induction n with
  | zero => intro k hk; rfl
  | succ n ih =>
    intro k hk
    rw [List.range'_succ]
    cases htf : Pos.try_from (op.into + del * (k : Int)) with
    | error e =>
      cases e
      have hrest : dirTargets op.into del (List.range' (k + 1) n) = [] := by
        apply List.filterMap_eq_nil_iff.mpr
        intro s hs
        have hks := List.mem_range'_1.mp hs
        have herr : Pos.try_from (op.into + del * (s : Int)) = .error .mk :=
          try_from_error_mono hk (by omega) htf
        simp [herr, Except.toOption]
      have hall : dirTargets op.into del (k :: List.range' (k + 1) n) = [] := by
        simp only [dirTargets, List.filterMap_cons, htf, Except.toOption]
        simpa [dirTargets] using hrest
      rw [hall, emitDiffs_nil, specDir, htf]
    | ok t =>
      have hcons : dirTargets op.into del (k :: List.range' (k + 1) n) =
          t :: dirTargets op.into del (List.range' (k + 1) n) := by
        simp only [dirTargets, List.filterMap_cons, htf, Except.toOption]
      rw [hcons, emitDiffs_cons]
      simp only [specDir, htf]
      cases hv : b.get t with
      | none => simp only [hv, ih (k + 1) (by omega)]
      | some pc =>
        obtain ⟨pt1, c1⟩ := pc
        simp only [hv]

/-- The source's filter-and-cut direction pipeline computes exactly the
spec's terminating walk of the direction, starting at step 1. -/
theorem genDir_eq_specDir (b : RawBoard) (color : Color) (op : Pos)
    (del : Vector) (ty : MoveType) (dist : Nat) :
    genDir b color op del ty dist = specDir b color op del ty 1 dist :=
  emit_range'_eq_specDir b color op del ty dist 1 le_rfl

/-- Shape of every diff a direction walk emits: it starts at the origin,
and is either a plain `Move` onto an empty square of a template that
permits plain moves, or a `Capture` (with `cap` equal to the destination)
of an opposite-colored occupant under a template that permits capture. -/
theorem mem_specDir {b : RawBoard} {color : Color} {op : Pos} {del : Vector}
    {ty : MoveType} :
    ∀ {n k : Nat} {d : Diff}, d ∈ specDir b color op del ty k n →
      d.src = op ∧
      ((d.ty = .Move ∧ ty.is_normal = true ∧ b.get d.dst = none) ∨
       (∃ pt1 c1, d.ty = .Capture d.dst ∧ ty.is_capture = true ∧
         b.get d.dst = some (pt1, c1) ∧ c1 ≠ color)) := by
  intro n
  induction n with
  | zero => intro k d h; simp [specDir] at h
  | succ n ih =>
    intro k d h
    rw [specDir] at h
    cases htf : Pos.try_from (op.into + del * (k : Int)) with
    | error e => simp only [htf] at h; simp at h
    | ok t =>
      simp only [htf] at h
      cases hv : b.get t with
      | none =>
        simp only [hv] at h
        rcases List.mem_append.mp h with hl | hr
        · cases hn : ty.is_normal with
          | true =>
            simp only [hn, if_true, List.mem_singleton] at hl
            subst hl
            exact ⟨rfl, Or.inl ⟨rfl, rfl, hv⟩⟩
          | false => simp only [hn] at hl; simp at hl
        · exact ih hr
      | some pc =>
        obtain ⟨pt1, c1⟩ := pc
        simp only [hv] at h
        cases hc : (ty.is_capture && c1 != color) with
        | true =>
          simp only [hc, if_true, List.mem_singleton] at h
          subst h
          have hcap := (Bool.and_eq_true _ _).mp hc
          refine ⟨rfl, Or.inr ⟨pt1, c1, rfl, hcap.1, hv, ?_⟩⟩
          simpa using hcap.2
        | false => simp only [hc] at h; simp at h

/-! ### Pseudo-legal diffs apply cleanly -/

theorem mem_gpmu {b : RawBoard} {pos : Pos} {d : Diff}
    (h : d ∈ (Board.get_possible_moves_unchecked b pos).getD []) :
    ∃ pt color, b.get pos = some (pt, color) ∧
      ∃ m ∈ pt.get_moves, d ∈ specDir b color pos (m.del * color.dir) m.ty 1 m.dist := by
  unfold Board.get_possible_moves_unchecked at h
  cases hp : b.get pos with
  | none => rw [hp] at h; simp at h
  | some pc =>
    obtain ⟨pt, color⟩ := pc
    rw [hp] at h
    simp only [Option.map_some', Option.getD_some] at h
    obtain ⟨m, hm, hd⟩ := List.mem_flatMap.mp h
    rw [genDir_eq_specDir] at hd
    exact ⟨pt, color, rfl, m, hm, hd⟩

theorem apply_of_mem_pseudo {b : RawBoard} {pos : Pos} {d : Diff}
    (h : d ∈ (Board.get_possible_moves_unchecked b pos).getD []) :
    (Board.apply b d).2 = none := by
  obtain ⟨pt, color, hp, m, hm, hd⟩ := mem_gpmu h
  obtain ⟨hsrc, hshape⟩ := mem_specDir hd
  obtain ⟨dty, dsrc, ddst⟩ := d
  have hsrc' : dsrc = pos := hsrc
  subst hsrc'
  rcases hshape with ⟨hty, _, hempty⟩ | ⟨pt1, c1, hty, _, hocc, hne⟩
  · have hty' : dty = .Move := hty
    subst hty'
    have hempty' : b.get ddst = none := hempty
    have hne_src : ddst ≠ dsrc := by
      intro he; rw [he, hp] at hempty'; cases hempty'
    have hrem : (b.removeAt dsrc).get ddst = none := by
      rw [RawBoard.removeAt, RawBoard.get_setSquare_ne b none hne_src]
      exact hempty'
    unfold Board.apply
    simp only [hp, RawBoard.removeAt] at hrem ⊢
    simp [hrem]
  · have hty' : dty = .Capture ddst := hty
    subst hty'
    have hocc' : b.get ddst = some (pt1, c1) := hocc
    have hne_src : ddst ≠ dsrc := by
      intro he
      rw [he, hp] at hocc'
      exact hne (congrArg Prod.snd (Option.some.inj hocc')).symm
    have hrem : (b.removeAt dsrc).get ddst = some (pt1, c1) := by
      rw [RawBoard.removeAt, RawBoard.get_setSquare_ne b none hne_src]
      exact hocc'
    unfold Board.apply
    simp only [hp, RawBoard.removeAt] at hrem ⊢
    simp [hrem]

/-! ### Claim theorems -/

/-- C10: every diff emitted by the pseudo-legal generator at an occupied
square applies successfully to the same board state, so the `unwrap`s in
the legality filter and the check detector can never hit an error. -/
theorem c10_pseudo_diffs_apply_cleanly (b : RawBoard) (pos : Pos) (d : Diff)
    (h : d ∈ (Board.get_possible_moves_unchecked b pos).getD []) :
    (Board.apply b d).2 = none :=
  apply_of_mem_pseudo h

/-- Witness for C10 at the lone-rook board: the rook's one-step move to
(1,0) is pseudo-legal and applies without error. -/
theorem c10_witness :
    (⟨.Move, ⟨0, 0⟩, ⟨1, 0⟩⟩ : Diff) ∈
        (Board.get_possible_moves_unchecked rookBoard ⟨0, 0⟩).getD [] ∧
      (Board.apply rookBoard ⟨.Move, ⟨0, 0⟩, ⟨1, 0⟩⟩).2 = none :=
  ⟨by decide, c10_pseudo_diffs_apply_cleanly rookBoard ⟨0, 0⟩ _ (by decide)⟩

theorem RawBoard.removeAt_of_get_none {b : RawBoard} {p : Pos} (h : b.get p = none) :
    b.removeAt p = b :=
  RawBoard.ext_get fun q => by
    by_cases hq : q = p
    · subst hq
      rw [RawBoard.removeAt, RawBoard.get_setSquare_self, h]
    · rw [RawBoard.removeAt, RawBoard.get_setSquare_ne b none hq]

/-- C1 fails on the code: applying a Capture diff whose `cap` square is
empty to the lone-rook board does return MoveOnCaptureTy, but the board
afterwards is not the board before the call — the source square (0,0) has
been emptied. -/
theorem c1_counterexample :
    (Board.apply rookBoard ⟨.Capture ⟨0, 1⟩, ⟨0, 0⟩, ⟨0, 1⟩⟩).2 =
        some (.InvalidDiff .MoveOnCaptureTy) ∧
      (Board.apply rookBoard ⟨.Capture ⟨0, 1⟩, ⟨0, 0⟩, ⟨0, 1⟩⟩).1 ≠ rookBoard := by
  constructor
  · decide
  · decide

/-- C1 amended: a failing `apply` can mutate the grid, but in exactly one
way — a NoPiece failure leaves the board unchanged, while every other
failure (CaptureOnMoveTy, MoveOnCaptureTy, InvalidPromotionPiece,
InvalidPromotionRow) has already removed the moving piece, so the board
afterwards is the board before with the diff's source square emptied. -/
theorem c1_amended_error_state (b : RawBoard) (d : Diff) (e : Error)
    (h : (Board.apply b d).2 = some e) :
    (e = .NoPiece ∧ (Board.apply b d).1 = b) ∨
      (e ≠ .NoPiece ∧ (Board.apply b d).1 = b.removeAt d.src) := by
  obtain ⟨dty, dsrc, ddst⟩ := d
  cases dty with
  | Move =>
    simp only [Board.apply] at h ⊢
    cases hsrc : b.get dsrc with
    | none =>
      simp only [hsrc] at h ⊢
      exact Or.inl ⟨(Option.some.inj h).symm, trivial⟩
    | some pc =>
      obtain ⟨piece, color⟩ := pc
      simp only [hsrc] at h ⊢
      cases hocc : ((b.removeAt dsrc).get ddst).isSome with
      | true =>
        simp only [hocc] at h ⊢
        refine Or.inr ⟨?_, by simp⟩
        rw [(Option.some.inj h).symm]
        intro hc
        cases hc
      | false => simp only [hocc] at h; cases h
  | Capture cap =>
    simp only [Board.apply] at h ⊢
    cases hsrc : b.get dsrc with
    | none =>
      simp only [hsrc] at h ⊢
      exact Or.inl ⟨(Option.some.inj h).symm, trivial⟩
    | some pc =>
      obtain ⟨piece, color⟩ := pc
      simp only [hsrc] at h ⊢
      cases hprev : ((b.removeAt dsrc).get cap).isNone with
      | true =>
        simp only [hprev] at h ⊢
        refine Or.inr ⟨?_, ?_⟩
        · rw [(Option.some.inj h).symm]
          intro hc
          cases hc
        · exact RawBoard.removeAt_of_get_none (Option.isNone_iff_eq_none.mp hprev)
      | false => simp only [hprev] at h; cases h
  | Promote piece =>
    simp only [Board.apply] at h ⊢
    cases hsrc : b.get dsrc with
    | none =>
      simp only [hsrc] at h ⊢
      exact Or.inl ⟨(Option.some.inj h).symm, trivial⟩
    | some pc =>
      obtain ⟨pt, color⟩ := pc
      cases pt with
      | Pawn =>
        simp only [hsrc] at h ⊢
        by_cases hrow : ((dsrc.into.y : Int) = (1 - color.dir) / 2 * 5 + 1 ∧
            (ddst.into.y : Int) = (1 - color.dir) / 2 * 8)
        · rw [if_pos hrow] at h
          cases h
        · rw [if_neg hrow] at h ⊢
          refine Or.inr ⟨?_, rfl⟩
          rw [(Option.some.inj h).symm]
          intro hc
          cases hc
      | King =>
        simp only [hsrc] at h ⊢
        refine Or.inr ⟨?_, trivial⟩
        rw [(Option.some.inj h).symm]
        intro hc
        cases hc
      | Queen =>
        simp only [hsrc] at h ⊢
        refine Or.inr ⟨?_, trivial⟩
        rw [(Option.some.inj h).symm]
        intro hc
        cases hc
      | Rook =>
        simp only [hsrc] at h ⊢
        refine Or.inr ⟨?_, trivial⟩
        rw [(Option.some.inj h).symm]
        intro hc
        cases hc
      | Bishop =>
        simp only [hsrc] at h ⊢
        refine Or.inr ⟨?_, trivial⟩
        rw [(Option.some.inj h).symm]
        intro hc
        cases hc
      | Knight =>
        simp only [hsrc] at h ⊢
        refine Or.inr ⟨?_, trivial⟩
        rw [(Option.some.inj h).symm]
        intro hc
        cases hc

/-- Witness for the amended C1: the failing Capture on the lone-rook board
is a non-NoPiece failure, and the state it leaves is the original board
with the source square (0,0) emptied. -/
theorem c1_amended_witness :
    (Board.apply rookBoard ⟨.Capture ⟨0, 1⟩, ⟨0, 0⟩, ⟨0, 1⟩⟩).2 =
        some (.InvalidDiff .MoveOnCaptureTy) ∧
      ((.InvalidDiff .MoveOnCaptureTy : Error) ≠ .NoPiece ∧
        (Board.apply rookBoard ⟨.Capture ⟨0, 1⟩, ⟨0, 0⟩, ⟨0, 1⟩⟩).1 =
          rookBoard.removeAt ⟨0, 0⟩) := by
  refine ⟨by decide, ?_⟩
  have h := c1_amended_error_state rookBoard ⟨.Capture ⟨0, 1⟩, ⟨0, 0⟩, ⟨0, 1⟩⟩
    (.InvalidDiff .MoveOnCaptureTy) (by decide)
  rcases h with ⟨he, _⟩ | hr
  · cases he
  · exact hr

/-- C2 documents a code bug: promotion does not follow the promotion
geometry the spec derives ("a pawn promotes when it reaches the rank
nearest the opponent's back rank").  A White pawn stepping from rank 6
onto its last rank 7 is rejected with InvalidPromotionRow, while the
code's own row test instead accepts a White "promotion" from rank 1 down
to rank 0 — the geometry of the other color. -/
theorem c2_promotion_row_is_wrong :
    (Board.apply whitePromBoard ⟨.Promote .Queen, ⟨4, 6⟩, ⟨4, 7⟩⟩).2 =
        some (.InvalidDiff .InvalidPromotionRow) ∧
      (Board.apply (RawBoard.empty.set ⟨4, 1⟩ .Pawn .White)
          ⟨.Promote .Queen, ⟨4, 1⟩, ⟨4, 0⟩⟩).2 = none := by
  constructor
  · decide
  · decide

/-- C3: a Promote diff whose source square holds a Black pawn never
succeeds — the destination-row test demands rank 8, which no Position
reaches — and the returned error is always InvalidPromotionRow. -/
theorem c3_black_promotion_impossible (b : RawBoard) (src dst : Pos) (piece : Piece)
    (h : b.get src = some (.Pawn, .Black)) :
    (Board.apply b ⟨.Promote piece, src, dst⟩).2 =
      some (.InvalidDiff .InvalidPromotionRow) := by
  have hnc : ¬(src.into.y = (1 - Color.Black.dir) / 2 * 5 + 1 ∧
      dst.into.y = (1 - Color.Black.dir) / 2 * 8) := by
    rintro ⟨-, h8⟩
    have hlt : (dst.y : Nat) < 8 := dst.y.isLt
    simp only [Pos.into, Color.dir] at h8
    omega
  simp only [Board.apply, h]
  rw [if_neg hnc]

/-- Witness for C3: the Black pawn on (3,6) cannot promote to (3,7). -/
theorem c3_witness :
    blackPawnBoard.get ⟨3, 6⟩ = some (.Pawn, .Black) ∧
      (Board.apply blackPawnBoard ⟨.Promote .Queen, ⟨3, 6⟩, ⟨3, 7⟩⟩).2 =
        some (.InvalidDiff .InvalidPromotionRow) :=
  ⟨by decide, c3_black_promotion_impossible blackPawnBoard ⟨3, 6⟩ ⟨3, 7⟩ .Queen (by decide)⟩

/-- C4: at an occupied origin the pseudo-legal generator emits, template
by template, exactly the spec walk of each color-scaled direction: a Move
for each empty on-board target while the template permits plain moves,
stopping at the first occupied target, which yields a Capture exactly
when its occupant is opposite-colored and the template permits capture,
and nothing on or beyond a same-colored occupant. -/
theorem c4_pseudo_legal_is_direction_walk (b : RawBoard) (pos : Pos) (pt : Piece)
    (color : Color) (h : b.get pos = some (pt, color)) :
    Board.get_possible_moves_unchecked b pos =
      some ((pt.get_moves).flatMap fun m =>
        specDir b color pos (m.del * color.dir) m.ty 1 m.dist) := by
  unfold Board.get_possible_moves_unchecked
  rw [h]
  simp only [Option.map_some', genDir_eq_specDir]

/-- Witness for C4 at the king-and-rook fixture, from the Black rook's
square. -/
theorem c4_witness :
    checkBoard.get ⟨0, 2⟩ = some (.Rook, .Black) ∧
      Board.get_possible_moves_unchecked checkBoard ⟨0, 2⟩ =
        some ((Piece.Rook.get_moves).flatMap fun m =>
          specDir checkBoard .Black ⟨0, 2⟩ (m.del * Color.Black.dir) m.ty 1 m.dist) :=
  ⟨by decide, c4_pseudo_legal_is_direction_walk checkBoard ⟨0, 2⟩ .Rook .Black (by decide)⟩

/-- C6: when the target of step `i` of a direction falls off the board,
the whole direction ends there — the direction's diffs are exactly those
of its first `i - 1` steps, so no step `j ≥ i` contributes a diff. -/
theorem c6_offboard_ends_direction (b : RawBoard) (color : Color) (op : Pos)
    (del : Vector) (ty : MoveType) (dist i : Nat) (h1 : 1 ≤ i)
    (h2 : Pos.try_from (op.into + del * (i : Int)) = .error .mk) :
    genDir b color op del ty dist = genDir b color op del ty (min dist (i - 1)) := by
  unfold genDir
  rcases le_or_lt dist (i - 1) with hle | hlt
  · rw [min_eq_left hle]
  · have hmin : min dist (i - 1) = i - 1 := min_eq_right (by omega)
    rw [hmin]
    have hsplit : List.range' 1 (i - 1) ++ List.range' i (dist - (i - 1)) = List.range' 1 dist := by
      have happ := List.range'_append_1 1 (i - 1) (dist - (i - 1))
      rw [show 1 + (i - 1) = i by omega, show dist - (i - 1) + (i - 1) = dist by omega] at happ
      exact happ
    rw [← hsplit]
    unfold dirTargets
    rw [List.filterMap_append]
    have hnil : (List.range' i (dist - (i - 1))).filterMap
        (fun (k : Nat) => (Pos.try_from (op.into + del * (k : Int))).toOption) = [] := by
      apply List.filterMap_eq_nil_iff.mpr
      intro s hs
      have hsi := List.mem_range'_1.mp hs
      have herr : Pos.try_from (op.into + del * (s : Int)) = .error .mk :=
        try_from_error_mono h1 (by omega) h2
      simp [herr, Except.toOption]
    rw [hnil, List.append_nil]

/-- Witness for C6: from the rook's square (0,0), step 8 of direction
(1,0) is off the board, and the slide of distance 8 equals the slide cut
to its first 7 steps. -/
theorem c6_witness :
    Pos.try_from ((⟨0, 0⟩ : Pos).into + (⟨1, 0⟩ : Vector) * ((8 : Nat) : Int)) = .error .mk ∧
      genDir rookBoard .White ⟨0, 0⟩ ⟨1, 0⟩ .MoveCapture 8 =
        genDir rookBoard .White ⟨0, 0⟩ ⟨1, 0⟩ .MoveCapture (min 8 (8 - 1)) :=
  ⟨by decide,
    c6_offboard_ends_direction rookBoard .White ⟨0, 0⟩ ⟨1, 0⟩ .MoveCapture 8 8
      (by decide) (by decide)⟩

/-- C5: for a pawn of color `c` anywhere on the board, the two-square
forward Move (displacement `(0, 2·dir)`) is emitted exactly when the
square two ahead is on the board and empty — there is no starting-rank
precondition, and the square one ahead plays no part. -/
theorem c5_double_step_no_rank_check (b : RawBoard) (pos : Pos) (c : Color)
    (h : b.get pos = some (.Pawn, c)) (t : Pos)
    (ht : Pos.try_from (pos.into + ⟨0, 2 * c.dir⟩) = .ok t) :
    ((⟨.Move, pos, t⟩ : Diff) ∈ (Board.get_possible_moves_unchecked b pos).getD []) ↔
      b.get t = none := by
  have hgen : (Board.get_possible_moves_unchecked b pos).getD [] =
      (Piece.Pawn.get_moves).flatMap fun m =>
        specDir b c pos (m.del * c.dir) m.ty 1 m.dist := by
    unfold Board.get_possible_moves_unchecked
    rw [h]
    simp only [Option.map_some', Option.getD_some, genDir_eq_specDir]
  rw [hgen]
  simp only [Piece.get_moves, List.flatMap_cons, List.flatMap_nil, List.append_nil,
    List.mem_append]
  constructor
  · rintro (hd | hd | hd | hd)
    · exact (mem_specDir hd).2.elim (fun hs => hs.2.2)
        (fun hs => DiffType.noConfusion hs.choose_spec.choose_spec.1)
    · exact (mem_specDir hd).2.elim (fun hs => hs.2.2)
        (fun hs => DiffType.noConfusion hs.choose_spec.choose_spec.1)
    · exact (mem_specDir hd).2.elim (fun hs => absurd hs.2.1 (by decide))
        (fun hs => DiffType.noConfusion hs.choose_spec.choose_spec.1)
    · exact (mem_specDir hd).2.elim (fun hs => absurd hs.2.1 (by decide))
        (fun hs => DiffType.noConfusion hs.choose_spec.choose_spec.1)
  · intro hempty
    have htf2 : Pos.try_from (pos.into + (⟨0, 2⟩ : Vector) * c.dir * ((1 : Nat) : Int)) =
        .ok t := by
      have hv : (⟨0, 2⟩ : Vector) * c.dir * ((1 : Nat) : Int) = (⟨0, 2 * c.dir⟩ : Vector) := by
        simp [Vector.mul_def]
      rw [hv]
      exact ht
    have hs2 : specDir b c pos ((⟨0, 2⟩ : Vector) * c.dir) .Move 1 1 = [⟨.Move, pos, t⟩] := by
      rw [specDir]
      simp only [htf2, hempty]
      simp [MoveType.is_normal, specDir]
    refine Or.inr (Or.inl ?_)
    rw [hs2]
    exact List.mem_singleton_self _

/-- Witness for C5: on the fixture with a White pawn at (3,3) — not its
starting rank — and a Black rook blocking (3,4), the double step to (3,5)
is still emitted because (3,5) is empty. -/
theorem c5_witness :
    jumpBoard.get ⟨3, 3⟩ = some (.Pawn, .White) ∧
      Pos.try_from ((⟨3, 3⟩ : Pos).into + ⟨0, 2 * Color.White.dir⟩) = .ok ⟨3, 5⟩ ∧
      jumpBoard.get ⟨3, 5⟩ = none ∧
      ((⟨.Move, ⟨3, 3⟩, ⟨3, 5⟩⟩ : Diff) ∈
        (Board.get_possible_moves_unchecked jumpBoard ⟨3, 3⟩).getD []) :=
  ⟨by decide, by decide, by decide,
    (c5_double_step_no_rank_check jumpBoard ⟨3, 3⟩ .White (by decide) ⟨3, 5⟩
      (by decide)).mpr (by decide)⟩

/-- C7: on a board holding the king of color `c`, the check detector
reports true exactly when some square occupied by the opposing color
yields a pseudo-legal diff whose destination square holds that king. -/
theorem c7_check_iff_attacked (b : RawBoard) (c : Color)
    (_hking : ∃ kp, b.get kp = some (.King, c)) :
    Board.is_king_check b c = true ↔
      ∃ p pt oc, b.get p = some (pt, oc) ∧ oc ≠ c ∧
        ∃ d ∈ (Board.get_possible_moves_unchecked b p).getD [],
          b.get d.dst = some (.King, c) := by
  unfold Board.is_king_check
  rw [List.any_eq_true]
  constructor
  · rintro ⟨pc, hpc, hkc⟩
    obtain ⟨t, ht, hin⟩ := List.mem_flatMap.mp hpc
    obtain ⟨hit, hcol⟩ := List.mem_filter.mp ht
    obtain ⟨p, pt, oc⟩ := t
    obtain ⟨d, hd, hget⟩ := List.mem_filterMap.mp hin
    have hocne : oc ≠ c := by simpa using hcol
    obtain ⟨k1, k2⟩ := pc
    have hk1 : k1 = Piece.King ∧ k2 = c := by
      have := (Bool.and_eq_true _ _).mp hkc
      constructor
      · simpa using this.1
      · simpa using this.2
    refine ⟨p, pt, oc, RawBoard.mem_iter.mp hit, hocne, d, hd, ?_⟩
    rw [hget, hk1.1, hk1.2]
  · rintro ⟨p, pt, oc, hp, hocne, d, hd, hget⟩
    refine ⟨(.King, c), List.mem_flatMap.mpr ⟨(p, pt, oc), ?_, ?_⟩, by simp⟩
    · exact List.mem_filter.mpr ⟨RawBoard.mem_iter.mpr hp, by simpa using hocne⟩
    · exact List.mem_filterMap.mpr ⟨d, hd, hget⟩

/-- Witness for C7: the Black rook on (0,2) attacks the White king on
(0,0), and the detector reports check. -/
theorem c7_witness :
    (∃ kp, checkBoard.get kp = some (.King, .White)) ∧
      Board.is_king_check checkBoard .White = true :=
  ⟨⟨⟨0, 0⟩, by decide⟩,
    (c7_check_iff_attacked checkBoard .White ⟨⟨0, 0⟩, by decide⟩).mpr
      ⟨⟨0, 2⟩, .Rook, .Black, by decide, by decide,
        ⟨.Capture ⟨0, 0⟩, ⟨0, 2⟩, ⟨0, 0⟩⟩, by decide, by decide⟩⟩

theorem has_moves_iff (b : RawBoard) (c : Color) :
    (((b.iter.filter fun t => t.2.2 == c).flatMap fun t =>
        (Board.get_possible_moves b t.1).getD []).any fun _ => true) = true ↔
      HasLegalMove b c := by
  rw [List.any_eq_true]
  constructor
  · rintro ⟨x, hx, -⟩
    obtain ⟨t, ht, hxin⟩ := List.mem_flatMap.mp hx
    obtain ⟨hit, hcol⟩ := List.mem_filter.mp ht
    obtain ⟨p, pt, oc⟩ := t
    have hoc : oc = c := by simpa using hcol
    subst hoc
    exact ⟨p, pt, RawBoard.mem_iter.mp hit, List.ne_nil_of_mem hxin⟩
  · rintro ⟨p, pt, hp, hne⟩
    obtain ⟨x, hx⟩ := List.exists_mem_of_ne_nil _ hne
    refine ⟨x, List.mem_flatMap.mpr ⟨(p, pt, c), ?_, hx⟩, rfl⟩
    exact List.mem_filter.mpr ⟨RawBoard.mem_iter.mpr hp, by simp⟩

/-- C8: the classifier returns Mate exactly when the king is checked and
no square of the color yields a legality-filtered diff, Check when
checked with such a diff, Stale when unchecked without one, and Safe when
unchecked with one.  (The classifier is a pure function of the grid in
this embedding, so it cannot modify the board.) -/
theorem c8_game_condition_classification (b : RawBoard) (c : Color) :
    (Board.game_condition b c = .Mate ↔
        (Board.is_king_check b c = true ∧ ¬HasLegalMove b c)) ∧
      (Board.game_condition b c = .Check ↔
        (Board.is_king_check b c = true ∧ HasLegalMove b c)) ∧
      (Board.game_condition b c = .Stale ↔
        (Board.is_king_check b c = false ∧ ¬HasLegalMove b c)) ∧
      (Board.game_condition b c = .Safe ↔
        (Board.is_king_check b c = false ∧ HasLegalMove b c)) := by
  have hmv := has_moves_iff b c
  by_cases hm : HasLegalMove b c
  · have hmb : (((b.iter.filter fun t => t.2.2 == c).flatMap fun t =>
        (Board.get_possible_moves b t.1).getD []).any fun _ => true) = true := hmv.mpr hm
    cases hk : Board.is_king_check b c with
    | true => simp [Board.game_condition, hk, hmb, hm]
    | false => simp [Board.game_condition, hk, hmb, hm]
  · have hmb : (((b.iter.filter fun t => t.2.2 == c).flatMap fun t =>
        (Board.get_possible_moves b t.1).getD []).any fun _ => true) = false :=
      Bool.eq_false_iff.mpr fun hc => hm (hmv.mp hc)
    cases hk : Board.is_king_check b c with
    | true => simp [Board.game_condition, hk, hmb, hm]
    | false => simp [Board.game_condition, hk, hmb, hm]

/-- C9: bounds-checked Position construction — from two coordinates or
from a Vector — succeeds exactly on coordinates inside the 8×8 board and
fails with OutOfBounds otherwise, and every valid Position round-trips
through `into` and `try_from` unchanged. -/
theorem c9_pos_bounds_and_roundtrip :
    (∀ x y : Nat,
        ((∃ p, Pos.new x y = .ok p ∧ p.into = ⟨(x : Int), (y : Int)⟩) ↔ (x < 8 ∧ y < 8)) ∧
        ((Pos.new x y = .error .mk) ↔ ¬(x < 8 ∧ y < 8))) ∧
      (∀ v : Vector,
        ((∃ p, Pos.try_from v = .ok p ∧ p.into = v) ↔
          (0 ≤ v.x ∧ v.x < 8 ∧ 0 ≤ v.y ∧ v.y < 8)) ∧
        ((Pos.try_from v = .error .mk) ↔ ¬(0 ≤ v.x ∧ v.x < 8 ∧ 0 ≤ v.y ∧ v.y < 8))) ∧
      (∀ p : Pos, Pos.try_from p.into = .ok p) := by
  refine ⟨fun x y => ?_, fun v => ?_, fun p => ?_⟩
  · unfold Pos.new
    by_cases hb : x < 8 ∧ y < 8
    · rw [dif_pos hb]
      refine ⟨⟨fun _ => hb, fun _ => ⟨_, rfl, ?_⟩⟩, ?_, ?_⟩
      · simp [Pos.into]
      · intro hc; cases hc
      · intro hc; exact absurd hb hc
    · rw [dif_neg hb]
      refine ⟨⟨?_, fun hc => absurd hc hb⟩, fun _ => hb, fun _ => rfl⟩
      rintro ⟨q, hq, -⟩
      cases hq
  · unfold Pos.try_from
    by_cases hb : 0 ≤ v.x ∧ 0 ≤ v.y ∧ v.x < 8 ∧ v.y < 8
    · rw [dif_pos hb]
      refine ⟨⟨fun _ => ⟨hb.1, hb.2.2.1, hb.2.1, hb.2.2.2⟩, fun _ => ⟨_, rfl, ?_⟩⟩, ?_, ?_⟩
      · obtain ⟨vx, vy⟩ := v
        simp only [Pos.into]
        rw [Int.toNat_of_nonneg hb.1, Int.toNat_of_nonneg hb.2.1]
      · intro hc; cases hc
      · intro hc; exact absurd ⟨hb.1, hb.2.2.1, hb.2.1, hb.2.2.2⟩ hc
    · rw [dif_neg hb]
      refine ⟨⟨?_, fun hc => absurd ⟨hc.1, hc.2.2.1, hc.2.1, hc.2.2.2⟩ hb⟩, ?_, ?_⟩
      · rintro ⟨q, hq, -⟩
        cases hq
      · intro _
        intro hc
        exact hb ⟨hc.1, hc.2.2.1, hc.2.1, hc.2.2.2⟩
      · intro _
        rfl
  · have hb : 0 ≤ p.into.x ∧ 0 ≤ p.into.y ∧ p.into.x < 8 ∧ p.into.y < 8 := by
      obtain ⟨px, py⟩ := p
      refine ⟨Int.natCast_nonneg _, Int.natCast_nonneg _, ?_, ?_⟩
      · show ((px : Nat) : Int) < 8
        exact_mod_cast px.isLt
      · show ((py : Nat) : Int) < 8
        exact_mod_cast py.isLt
    unfold Pos.try_from
    rw [dif_pos hb]
    refine congrArg Except.ok (Pos.into_inj ?_)
    obtain ⟨px, py⟩ := p
    simp [Pos.into]

end ChessCore
